import Mathlib

/-!
Verification of the task/memory core of the `good-os-framework` kernel.

The Rust sources are shallowly embedded: each Lean definition mirrors one
Rust function of the repository (module paths given in the doc comments).
Machine integers are modelled as `Nat`/`Int`; `usize` subtraction that may
wrap is modelled explicitly modulo `2^64` (release-mode semantics);
operations that can panic return `Option` (`none` = panic).
-/

namespace GoodOs

/-! ## Thread model (`src/task/thread.rs`) -/

/-- `ThreadState` from `src/task/thread.rs`. -/
inductive ThreadState where
  | Running
  | Ready
  | Blocked
  | Waiting
  | Terminated
deriving DecidableEq, Repr

/-- The fields of `Thread` (`src/task/thread.rs`) that the scheduler and the
signal wake-up hook read or write.  `context` is the saved context pointer
(a virtual address, modelled as `Nat`); the kernel stack and FPU area carry
no information the claims mention and are omitted. -/
structure ThreadM where
  id : Nat
  cpu_id : Nat
  process : Nat
  priority : Int
  vruntime : Int
  state : ThreadState
  context : Nat
deriving DecidableEq, Repr

/-! ## Signal manager (`src/task/signal.rs`) -/

/-- `Signal` from `src/task/signal.rs`: a type tag and a `[u64; 8]` payload. -/
structure Signal where
  ty : Nat
  data : List Nat
deriving DecidableEq, Repr

/-- `Bitmap` from `src/data/bitmap.rs`: a byte array; bit `i` lives in byte
`i / 8` at position `i % 8`.  `len` is the length of the **byte** array,
exactly as `Bitmap::len` returns `self.inner.len()`. -/
structure Bitmap where
  inner : List Nat
deriving DecidableEq, Repr

/-- `Bitmap::len` (`src/data/bitmap.rs`): the number of bytes. -/
def Bitmap.len (bm : Bitmap) : Nat := bm.inner.length

/-- `Bitmap::get`: `self.inner[index / 8].get_bit(index % 8)`. -/
def Bitmap.get (bm : Bitmap) (index : Nat) : Bool :=
  (bm.inner.getD (index / 8) 0).testBit (index % 8)

/-- `u8::set_bit` (bit_field crate) on a byte: set or clear bit `k`. -/
def setBitByte (b k : Nat) (value : Bool) : Nat :=
  if value then b ||| (1 <<< k) else b &&& (255 ^^^ (1 <<< k))

/-- `Bitmap::set`: update bit `index % 8` of byte `index / 8`.  (In Rust an
out-of-range index panics; `List.set` leaves the list unchanged there, and
every theorem that relies on the write supplies an in-range hypothesis.) -/
def Bitmap.set (bm : Bitmap) (index : Nat) (value : Bool) : Bitmap :=
  ⟨bm.inner.set (index / 8) (setBitByte (bm.inner.getD (index / 8) 0) (index % 8) value)⟩

/-- The state a process's `SignalManager` (`src/task/signal.rs`) closes
over, together with the thread list of its process, which the wake-up hook
`create_wake_up_function` (`src/task/process.rs`) mutates. -/
structure SigState where
  signal_bitmap : Bitmap
  signals : List Signal
  waiting_for : Nat
  threads : List ThreadM
deriving DecidableEq, Repr

/-- `create_wake_up_function` (`src/task/process.rs` lines 47-60): set the
state of every thread of the process to `Ready`. -/
def wakeUpProcess (threads : List ThreadM) : List ThreadM :=
  threads.map fun t => { t with state := ThreadState.Ready }

/-- `SignalManager::register_signal` (`src/task/signal.rs` lines 41-50).
`none` models the `assert_ne!(signal_type, 0)` panic.  The returned `Bool`
records whether the wake-up hook was invoked. -/
def registerSignal (st : SigState) (signal_type : Nat) (signal : Signal) :
    Option (SigState × Bool) :=
  if signal_type = 0 then none
  else
    let st1 : SigState :=
      { st with
        signal_bitmap := st.signal_bitmap.set signal_type true
        signals := st.signals ++ [signal] }
    if signal_type = st.waiting_for then
      some ({ st1 with threads := wakeUpProcess st1.threads, waiting_for := 0 }, true)
    else
      some (st1, false)

/-- `SignalManager::register_wait_for` (`src/task/signal.rs` lines 53-55). -/
def registerWaitFor (st : SigState) (signal_type : Nat) : SigState :=
  { st with waiting_for := signal_type }

/-- The loop body of `SignalManager::delete_signal`: Rust iterates `idx`
over the range `0..signals.len()` computed **once**, while `remove(idx)`
shrinks the vector; `signals[idx]` out of bounds is a panic (`none`). -/
def deleteLoop (signal_type : Nat) : List Nat → List Signal → Option (List Signal)
  | [], sigs => some sigs
  | idx :: rest, sigs =>
    match sigs.get? idx with
    | none => none
    | some s =>
      if s.ty = signal_type then
        deleteLoop signal_type rest (sigs.eraseIdx idx)
      else
        deleteLoop signal_type rest sigs

/-- `SignalManager::delete_signal` (`src/task/signal.rs` lines 73-82). -/
def deleteSignal (st : SigState) (signal_type : Nat) : Option SigState :=
  if st.signal_bitmap.get signal_type then
    match deleteLoop signal_type (List.range st.signals.length) st.signals with
    | none => none
    | some sigs' =>
      some { st with
              signal_bitmap := st.signal_bitmap.set signal_type false
              signals := sigs' }
  else
    some st

/-! ## Scheduler (`src/task/scheduler.rs`)

Threads live behind `Arc<RwLock<Thread>>`; the global `THREADS` list and a
scheduler's `current_thread` alias the same cells.  We model the cells as a
heap `Nat → ThreadM` keyed by object address, `THREADS` as a list of
addresses, and `current_thread` as an address. -/

/-- Writing through one `Arc<RwLock<Thread>>` cell. -/
def hupdate (heap : Nat → ThreadM) (a : Nat) (v : ThreadM) : Nat → ThreadM :=
  fun x => if x = a then v else heap x

/-- The number of threads of the ready list assigned to `cpu_id`: the inner
counting loop of `add_thread` (`src/task/scheduler.rs` lines 67-78). -/
def cpuLoad (heap : Nat → ThreadM) (ts : List Nat) (cpu_id : Nat) : Nat :=
  (ts.filter fun a => (heap a).cpu_id = cpu_id).length

/-- `usize` subtraction in release mode: wrapping, modulo `2^64`. -/
def wsub64 (a b : Nat) : Nat := (a + (2 ^ 64 - b % 2 ^ 64)) % 2 ^ 64

/-- The `for cpu_id in 0..cpu_num` loop of `add_thread`
(`src/task/scheduler.rs` lines 66-84).  State: the pair
`(min_loads_cpu_id, min_loads)`.  The Rust guard is
`min_loads - tmp_cpu_loads > 0` on `usize`, which wraps. -/
def addThreadLoop (heap : Nat → ThreadM) (ts : List Nat) :
    List Nat → Nat → Nat → Nat × Nat
  | [], minCpu, minLoads => (minCpu, minLoads)
  | c :: rest, minCpu, minLoads =>
    let tmp := cpuLoad heap ts c
    if 0 < wsub64 minLoads tmp then
      addThreadLoop heap ts rest c tmp
    else
      addThreadLoop heap ts rest minCpu minLoads

/-- `add_thread` (`src/task/scheduler.rs` lines 56-92): choose a CPU for the
thread at address `addr`, rewrite its `cpu_id` if the choice differs, and
push it onto the ready list.  When the ready list is empty the `for` loop
breaks on its first iteration, leaving the initial `(thread.cpu_id, len)`. -/
def addThread (heap : Nat → ThreadM) (ts : List Nat) (cpu_num addr : Nat) :
    (Nat → ThreadM) × List Nat :=
  let t := heap addr
  let minCpu :=
    if ts.isEmpty then t.cpu_id
    else (addThreadLoop heap ts (List.range cpu_num) t.cpu_id ts.length).1
  let heap' :=
    if minCpu ≠ t.cpu_id then hupdate heap addr { t with cpu_id := minCpu } else heap
  (heap', ts ++ [addr])

/-- `Thread::new_init_thread` (`src/task/thread.rs` lines 76-85): build a
thread via `Thread::new` (state `Ready`, `vruntime = -1`, `cpu_id` = this
CPU's LAPIC id), overwrite state to `Running` and priority to `1`, store it
at the fresh address `addr`, and hand it to `add_thread`. -/
def newInitThread (heap : Nat → ThreadM) (ts : List Nat)
    (cpu_num addr newId lapic pid : Nat) : (Nat → ThreadM) × List Nat :=
  let t : ThreadM :=
    { id := newId, cpu_id := lapic, process := pid, priority := 1,
      vruntime := -1, state := ThreadState.Running, context := 0 }
  addThread (hupdate heap addr t) ts cpu_num addr

/-- The body of `Scheduler::get_next` (`src/task/scheduler.rs` lines
105-118): up to `fuel` times (`fuel` starts as `threads.len()`, which the
rotation keeps constant), pop the front, push it to the back, and return it
if it is `Ready`, on this CPU, and not the current thread. -/
def getNextAux (heap : Nat → ThreadM) (cpu_id curThreadId : Nat) :
    Nat → List Nat → Option Nat × List Nat
  | 0, ts => (none, ts)
  | _ + 1, [] => (none, [])
  | fuel + 1, a :: rest =>
    let ts' := rest ++ [a]
    if (heap a).state = ThreadState.Ready ∧ (heap a).cpu_id = cpu_id ∧
        (heap a).id ≠ curThreadId then
      (some a, ts')
    else
      getNextAux heap cpu_id curThreadId fuel ts'

/-- `Scheduler::get_next`: the loop runs at most `threads.len()` times. -/
def getNext (heap : Nat → ThreadM) (ts : List Nat) (cpu_id curThreadId : Nat) :
    Option Nat × List Nat :=
  getNextAux heap cpu_id curThreadId ts.length ts

/-- Step 1 of `Scheduler::schedule`: through the current thread's lock,
save the interrupted context and decrement `vruntime`. -/
def schedStep1 (heap : Nat → ThreadM) (cur context : Nat) : Nat → ThreadM :=
  hupdate heap cur
    { heap cur with context := context, vruntime := (heap cur).vruntime - 1 }

/-- What `Scheduler::schedule` did. -/
inductive SchedOutcome where
  | same
  | switched (next : Nat)
  | panicked
deriving DecidableEq, Repr

/-- Result of `Scheduler::schedule`: the returned context address, the
outcome, and the new shared state. -/
structure SchedResult where
  ret : Nat
  outcome : SchedOutcome
  heap : Nat → ThreadM
  threads : List Nat
  currentAddr : Nat

/-- `next_thread.write().state = ThreadState::Running`
(`src/task/scheduler.rs` line 144). -/
def promoteNext (heap1 : Nat → ThreadM) (naddr : Nat) : Nat → ThreadM :=
  hupdate heap1 naddr { heap1 naddr with state := ThreadState.Running }

/-- `if last_thread.read().state == Running { vruntime = priority;
state = Ready }` (`src/task/scheduler.rs` lines 147-151). -/
def demoteLast (heap2 : Nat → ThreadM) (cur : Nat) : Nat → ThreadM :=
  if (heap2 cur).state = ThreadState.Running then
    hupdate heap2 cur
      { heap2 cur with vruntime := (heap2 cur).priority, state := ThreadState.Ready }
  else heap2

/-- `Scheduler::schedule` (`src/task/scheduler.rs` lines 120-171).
`cur` is the address of `self.current_thread`, `context` the context
pointer argument, `cpu_id` this CPU's LAPIC id.  FPU save/restore has no
observable effect on the modelled state.  The `panicked` outcome is the
`"Could not get the next thread to run!"` panic. -/
def schedule (heap : Nat → ThreadM) (ts : List Nat) (cur context cpu_id : Nat) :
    SchedResult :=
  let heap1 := schedStep1 heap cur context
  let last := heap1 cur
  if last.vruntime ≤ 0 ∨ last.state = ThreadState.Terminated then
    match getNext heap1 ts cpu_id last.id with
    | (none, ts2) =>
      if last.state = ThreadState.Terminated then
        { ret := 0, outcome := SchedOutcome.panicked, heap := heap1,
          threads := ts2, currentAddr := cur }
      else
        { ret := context, outcome := SchedOutcome.same, heap := heap1,
          threads := ts2, currentAddr := cur }
    | (some naddr, ts2) =>
      let heap3 := demoteLast (promoteNext heap1 naddr) cur
      { ret := (heap3 naddr).context, outcome := SchedOutcome.switched naddr,
        heap := heap3, threads := ts2, currentAddr := naddr }
  else
    { ret := context, outcome := SchedOutcome.same, heap := heap1,
      threads := ts, currentAddr := cur }

/-- The system-level effect of `create_wake_up_function`
(`src/task/process.rs`): set every thread of process `pid` to `Ready`. -/
def wakeProcess (heap : Nat → ThreadM) (pid : Nat) : Nat → ThreadM :=
  fun a => if (heap a).process = pid then { heap a with state := ThreadState.Ready }
           else heap a

/-! ## Bitmap frame allocator (`src/memory/frame.rs`) -/

/-- `BitmapFrameAllocator` (`src/memory/frame.rs`). -/
structure FrameAlloc where
  bitmap : Bitmap
  usable_frames : Nat
  next_frame : Nat
deriving DecidableEq, Repr

/-- The run-scanning `while` loop of `allocate_frames`
(`src/memory/frame.rs` lines 91-98 and 126-133):
`while next < len && get(next) { next += 1; frame_cnt += 1;
 if frame_cnt == cnt { found = true; break } }`.
Note the bound is `Bitmap::len`, the **byte** length of the buffer.
Returns the final `next` and `found`. -/
def scanRun (bm : Bitmap) (cnt : Nat) (next fc : Nat) : Nat × Bool :=
  if h : next < bm.len ∧ bm.get next = true then
    if fc + 1 = cnt then (next + 1, true)
    else scanRun bm cnt (next + 1) (fc + 1)
  else (next, false)
termination_by bm.len - next
decreasing_by omega

/-- The zero-skipping `while` loop of `allocate_frames`
(`src/memory/frame.rs` lines 119-121):
`while next < len && !get(next) { next += 1 }`. -/
def skipZeros (bm : Bitmap) (next : Nat) : Nat :=
  if h : next < bm.len ∧ bm.get next = false then skipZeros bm (next + 1)
  else next
termination_by bm.len - next
decreasing_by omega

/-- `for i in next - cnt..next { bitmap.set(i, false) }`
(`src/memory/frame.rs` lines 104-106 and 138-140). -/
def clearRange (bm : Bitmap) (lo hi : Nat) : Bitmap :=
  (List.range' lo (hi - lo)).foldl (fun b i => b.set i false) bm

theorem skipZeros_ge (bm : Bitmap) (next : Nat) : next ≤ skipZeros bm next := by
  unfold skipZeros
  split
  · exact le_trans (Nat.le_succ next) (skipZeros_ge bm (next + 1))
  · exact le_refl next
termination_by bm.len - next
decreasing_by omega

theorem scanRun_fst_ge (bm : Bitmap) (cnt next fc : Nat) :
    next ≤ (scanRun bm cnt next fc).1 := by
  unfold scanRun
  split
  · split
    · exact Nat.le_succ next
    · exact le_trans (Nat.le_succ next) (scanRun_fst_ge bm cnt (next + 1) (fc + 1))
  · exact le_refl next
termination_by bm.len - next
decreasing_by omega

theorem scanRun_fst_gt (bm : Bitmap) (cnt next fc : Nat)
    (h1 : next < bm.len) (h2 : bm.get next = true) :
    next + 1 ≤ (scanRun bm cnt next fc).1 := by
  unfold scanRun
  rw [dif_pos ⟨h1, h2⟩]
  split
  · exact le_refl _
  · exact scanRun_fst_ge bm cnt (next + 1) (fc + 1)

theorem skipZeros_gt (bm : Bitmap) (next : Nat)
    (h1 : next < bm.len) (h2 : bm.get next = false) :
    next + 1 ≤ skipZeros bm next := by
  unfold skipZeros
  rw [dif_pos ⟨h1, h2⟩]
  exact skipZeros_ge bm (next + 1)

/-- The outer `loop` of `allocate_frames` (`src/memory/frame.rs` lines
113-144).  Returns the address and mutated bitmap on success; `none` is
the `next >= bitmap.len()` exit (the caller restores `usable_frames`). -/
def allocLoop (bm : Bitmap) (cnt : Nat) (next : Nat) : Option (Nat × Bitmap) :=
  if h : next < bm.len then
    if (scanRun bm cnt (skipZeros bm next) 0).2 then
      some (((scanRun bm cnt (skipZeros bm next) 0).1 - cnt) * 4096,
            clearRange bm ((scanRun bm cnt (skipZeros bm next) 0).1 - cnt)
              (scanRun bm cnt (skipZeros bm next) 0).1)
    else allocLoop bm cnt (scanRun bm cnt (skipZeros bm next) 0).1
  else none
termination_by bm.len - next
decreasing_by
  have h1 : next ≤ skipZeros bm next := skipZeros_ge bm next
  have h2 : skipZeros bm next ≤ (scanRun bm cnt (skipZeros bm next) 0).1 :=
    scanRun_fst_ge bm cnt _ 0
  have h3 : next + 1 ≤ (scanRun bm cnt (skipZeros bm next) 0).1 := by
    rcases Nat.lt_or_ge next (skipZeros bm next) with hlt | hge
    · omega
    · have heq : skipZeros bm next = next := le_antisymm hge h1
      rw [heq]
      by_cases hb : bm.get next = true
      · exact scanRun_fst_gt bm cnt next 0 h hb
      · exact absurd (skipZeros_gt bm next h (Bool.not_eq_true _ ▸ hb)) (by omega)
  omega

/-- `BitmapFrameAllocator::allocate_frames` (`src/memory/frame.rs` lines
79-145).  `usable_frames` is decremented up front and restored on the
`None` exit of the loop. -/
def allocateFrames (a : FrameAlloc) (cnt : Nat) : Option Nat × FrameAlloc :=
  if a.usable_frames < cnt then (none, a)
  else
    let sr := scanRun a.bitmap cnt a.next_frame 0
    if sr.2 then
      (some ((sr.1 - cnt) * 4096),
       { bitmap := clearRange a.bitmap (sr.1 - cnt) sr.1,
         usable_frames := a.usable_frames - cnt, next_frame := sr.1 })
    else
      match allocLoop a.bitmap cnt sr.1 with
      | some (addr, bm') =>
        (some addr, { a with bitmap := bm', usable_frames := a.usable_frames - cnt })
      | none =>
        (none, { a with usable_frames := a.usable_frames - cnt + cnt })

/-- `(self.next_frame + 1..self.bitmap.len()).find(|&i| get(i)).unwrap_or(len)`
(`src/memory/frame.rs` lines 160-162). -/
def findNextSet (bm : Bitmap) (i : Nat) : Nat :=
  if h : i < bm.len then (if bm.get i then i else findNextSet bm (i + 1))
  else bm.len
termination_by bm.len - i
decreasing_by omega

/-- `BitmapFrameAllocator::allocate_frame` (`src/memory/frame.rs` lines
149-165): clear the bit at `next_frame` (checking only `usable_frames`,
not the bit itself), return `next_frame * 4096`, advance `next_frame` to
the next set bit. -/
def allocateFrame (a : FrameAlloc) : Option Nat × FrameAlloc :=
  if a.usable_frames = 0 then (none, a)
  else
    let bm' := a.bitmap.set a.next_frame false
    (some (a.next_frame * 4096),
     { bitmap := bm', usable_frames := a.usable_frames - 1,
       next_frame := findNextSet bm' (a.next_frame + 1) })

/-- `BitmapFrameAllocator::deallocate_frame` (`src/memory/frame.rs` lines
168-173): set the frame's bit.  `usable_frames` is not touched. -/
def deallocateFrame (a : FrameAlloc) (addr : Nat) : FrameAlloc :=
  { a with bitmap := a.bitmap.set (addr / 4096) true }

/-- Population count of a byte (bits 0-7). -/
def byteOnes (b : Nat) : Nat := ((List.range 8).filter fun k => b.testBit k).length

/-- Number of set bits of the frame bitmap. -/
def Bitmap.popcount (bm : Bitmap) : Nat := (bm.inner.map byteOnes).sum

/-! ## Page table cloning (`src/memory/page_table.rs`)

Physical memory holding page tables is modelled as `PTMem : Nat → Nat →
PTEntry` (frame address → entry index → entry).  `new` obtains fresh
frames from the allocator; frames the allocator hands out are not in use,
modelled by a counter `next` of never-yet-used addresses. -/

/-- A page-table entry: physical address and flags, as read back by
`entry.addr()` and `entry.flags()`. -/
structure PTEntry where
  addr : Nat
  flags : Nat
deriving DecidableEq, Repr

/-- `PageTableEntry::is_unused`: the raw entry is zero. -/
def PTEntry.isUnused (e : PTEntry) : Bool := e.addr = 0 && e.flags = 0

/-- `entry.flags().contains(PageTableFlags::HUGE_PAGE)`: bit 7. -/
def PTEntry.isHuge (e : PTEntry) : Bool := e.flags.testBit 7

/-- Physical memory as a map from frame address to page table. -/
def PTMem : Type := Nat → Nat → PTEntry

/-- `target_page_table[index].set_addr(addr, flags)`: write one entry. -/
def writePT (m : PTMem) (t i : Nat) (e : PTEntry) : PTMem :=
  fun a j => if a = t ∧ j = i then e else m a j

/-- `GeneralPageTable::new_from_recursion` (`src/memory/page_table.rs`
lines 82-110), iterating over the given entry indices (Rust:
`source_page_table.iter().enumerate()`, indices `0..512`).  `next` is the
frame allocator: `Self::new` hands out the frame `next` and advances it.
Level-1 entries, unused entries and huge entries are copied by value; any
other entry gets a freshly allocated table, filled recursively from the
table at `entry.addr()`.  (Level `0` never arises: the recursion stops at
level 1; it is mapped to the identity.) -/
def cloneRec : Nat → List Nat → PTMem → Nat → Nat → Nat → PTMem × Nat
  | _, [], m, next, _, _ => (m, next)
  | 0, _ :: _, m, next, _, _ => (m, next)
  | l + 1, i :: rest, m, next, srcAddr, tgtAddr =>
    if l + 1 = 1 ∨ (m srcAddr i).isUnused ∨ (m srcAddr i).isHuge then
      cloneRec (l + 1) rest (writePT m tgtAddr i (m srcAddr i)) next srcAddr tgtAddr
    else
      cloneRec (l + 1) rest
        (cloneRec l (List.range 512)
          (writePT m tgtAddr i { addr := next, flags := (m srcAddr i).flags })
          (next + 1) (m srcAddr i).addr next).1
        (cloneRec l (List.range 512)
          (writePT m tgtAddr i { addr := next, flags := (m srcAddr i).flags })
          (next + 1) (m srcAddr i).addr next).2
        srcAddr tgtAddr
termination_by l idxs => (l, idxs.length)
decreasing_by
  · exact Prod.Lex.right (l + 1) (Nat.lt_succ_self rest.length)
  · exact Prod.Lex.left _ _ (Nat.lt_succ_self l)
  · exact Prod.Lex.right (l + 1) (Nat.lt_succ_self rest.length)

/-- `GeneralPageTable::new_from_address` (`src/memory/page_table.rs` lines
33-44): allocate a root frame (`Self::new`) and clone the table at
`srcAddr` into it starting at level 4.  Returns the final memory, the
allocator position, and the clone's root address. -/
def newFromAddress (m : PTMem) (next srcAddr : Nat) : PTMem × Nat × Nat :=
  let r := cloneRec 4 (List.range 512) m (next + 1) srcAddr next
  (r.1, r.2, next)

/-! ## Bitmap lemmas -/

theorem setBitByte_testBit (b k : Nat) (v : Bool) (m : Nat) (hk : k < 8) (hm : m < 8) :
    (setBitByte b k v).testBit m = if m = k then v else b.testBit m := by
  have h255 : (255 : Nat) = 2 ^ 8 - 1 := by norm_num
  unfold setBitByte
  cases v with
  | true =>
    simp only [if_pos trivial, Nat.testBit_or, Nat.one_shiftLeft, Nat.testBit_two_pow]
    by_cases hmk : m = k
    · subst hmk; simp
    · simp [hmk, Ne.symm hmk]
  | false =>
    rw [if_neg (by simp), h255]
    simp only [Nat.testBit_and, Nat.testBit_xor, Nat.one_shiftLeft, Nat.testBit_two_pow,
      Nat.testBit_two_pow_sub_one]
    by_cases hmk : m = k
    · subst hmk; simp [hm]
    · simp [hmk, Ne.symm hmk, hm]

theorem Bitmap.len_set (bm : Bitmap) (i : Nat) (v : Bool) : (bm.set i v).len = bm.len := by
  simp [Bitmap.set, Bitmap.len]

theorem Bitmap.get_set (bm : Bitmap) (i j : Nat) (v : Bool) (hi : i / 8 < bm.inner.length) :
    (bm.set i v).get j = if j = i then v else bm.get j := by
  have h8 : (0 : Nat) < 8 := by norm_num
  unfold Bitmap.get Bitmap.set
  simp only [List.getD_eq_getElem?_getD]
  by_cases hd : j / 8 = i / 8
  · rw [hd, List.getElem?_set_self hi]
    simp only [Option.getD_some]
    rw [setBitByte_testBit _ _ _ _ (Nat.mod_lt _ h8) (Nat.mod_lt _ h8)]
    by_cases hm : j % 8 = i % 8
    · have hji : j = i := by omega
      simp [hm, hji]
    · have hji : j ≠ i := by
        intro hcon; exact hm (by rw [hcon])
      simp [hm, hji, hd]
  · have hji : j ≠ i := by
      intro hcon; exact hd (by rw [hcon])
    rw [List.getElem?_set_ne (fun hcon => hd hcon.symm)]
    simp [hji]

/-! ## Signal-manager theorems (claims C8, C9, C10) -/

/-- C8: for a process whose signal manager is waiting for `t ≠ 0`,
`register_signal(t, s)` sets presence bit `t`, appends `s` to the signal
list, and before returning invokes the wake-up hook, which sets the state
of every thread of the process (whatever it was, `Waiting` and `Blocked`
included) to `Ready`. -/
theorem registerSignal_waiting_wakes (st : SigState) (t : Nat) (s : Signal)
    (h0 : t ≠ 0) (hw : st.waiting_for = t) (hb : t / 8 < st.signal_bitmap.inner.length) :
    ∃ st', registerSignal st t s = some (st', true) ∧
      st'.signal_bitmap.get t = true ∧
      st'.signals = st.signals ++ [s] ∧
      ∀ th ∈ st'.threads, th.state = ThreadState.Ready := by
  unfold registerSignal
  rw [if_neg h0, if_pos hw.symm]
  refine ⟨_, rfl, ?_, rfl, ?_⟩
  · rw [Bitmap.get_set _ _ _ _ hb]
    simp
  · intro th hth
    simp only [wakeUpProcess, List.mem_map] at hth
    obtain ⟨t0, _, rfl⟩ := hth
    rfl

/-- C8 witness: a concrete waiting process is woken by `register_signal`. -/
theorem registerSignal_waiting_wakes_witness :
    ∃ st', registerSignal
        ⟨⟨[0]⟩, [], 1, [⟨7, 0, 3, 20, 5, ThreadState.Waiting, 0⟩]⟩ 1 ⟨1, []⟩ =
        some (st', true) ∧
      st'.signal_bitmap.get 1 = true ∧
      st'.signals = [] ++ [⟨1, []⟩] ∧
      ∀ th ∈ st'.threads, th.state = ThreadState.Ready :=
  registerSignal_waiting_wakes _ 1 _ (by decide) (by decide) (by decide)

/-- C9: `delete_signal` on a manager whose signal list is
`[{ty=1}, {ty=2}]` with presence bit 1 set: the loop removes index 0 and
then indexes position 1 of the shrunk one-element vector — an
out-of-bounds panic, contradicting the claim that the call terminates and
removes all signals of the type. -/
theorem deleteSignal_out_of_bounds :
    deleteSignal ⟨⟨[2]⟩, [⟨1, []⟩, ⟨2, []⟩], 0, []⟩ 1 = none := by decide

/-- C10: a successful wait is one-shot: `register_signal(t, s)` on a
manager waiting for `t` wakes the process and resets `waiting_for` to 0,
so a second `register_signal` of the same type does not invoke the hook —
until `register_wait_for` arms the wait again, after which it does. -/
theorem registerSignal_one_shot (st : SigState) (t : Nat) (s s2 s3 : Signal)
    (h0 : t ≠ 0) (hw : st.waiting_for = t) :
    ∀ st1 woke, registerSignal st t s = some (st1, woke) →
      woke = true ∧ st1.waiting_for = 0 ∧
      (∃ st2, registerSignal st1 t s2 = some (st2, false)) ∧
      (∃ st3, registerSignal (registerWaitFor st1 t) t s3 = some (st3, true)) := by
  intro st1 woke h
  unfold registerSignal at h
  rw [if_neg h0, if_pos hw.symm] at h
  simp only [Option.some.injEq, Prod.mk.injEq] at h
  obtain ⟨h1, h2⟩ := h
  subst h1
  refine ⟨h2.symm, rfl, ?_, ?_⟩
  · have : ∀ m : SigState, m.waiting_for ≠ t → t ≠ 0 →
        ∃ st2, registerSignal m t s2 = some (st2, false) := by
      intro m hm ht
      unfold registerSignal
      rw [if_neg ht, if_neg (fun hc => hm hc.symm)]
      exact ⟨_, rfl⟩
    exact this _ (fun hc => h0 hc.symm) h0
  · have : ∀ m : SigState, m.waiting_for = t → t ≠ 0 →
        ∃ st3, registerSignal m t s3 = some (st3, true) := by
      intro m hm ht
      unfold registerSignal
      rw [if_neg ht, if_pos hm.symm]
      exact ⟨_, rfl⟩
    exact this _ rfl h0

/-- C10 witness at a concrete manager: registering signal type 5 on a
manager waiting for 5 wakes it once; the re-registration does not wake. -/
theorem registerSignal_one_shot_witness :
    true = true ∧ (⟨⟨[32]⟩, [⟨5, []⟩], 0, []⟩ : SigState).waiting_for = 0 ∧
      (∃ st2, registerSignal ⟨⟨[32]⟩, [⟨5, []⟩], 0, []⟩ 5 ⟨5, [1]⟩ = some (st2, false)) ∧
      (∃ st3, registerSignal (registerWaitFor ⟨⟨[32]⟩, [⟨5, []⟩], 0, []⟩ 5) 5 ⟨5, [2]⟩ =
        some (st3, true)) :=
  registerSignal_one_shot ⟨⟨[0]⟩, [], 5, []⟩ 5 ⟨5, []⟩ ⟨5, [1]⟩ ⟨5, [2]⟩
    (by decide) rfl ⟨⟨[32]⟩, [⟨5, []⟩], 0, []⟩ true (by decide)

/-! ## Load balancing (claim C2) -/

/-- Ready list for the `add_thread` evaluation: five threads on CPU 1
(addresses 0-4), three on CPU 2 (addresses 5-7); address 8 holds the
thread being added, currently tagged CPU 0. -/
def c2heap : Nat → ThreadM := fun a =>
  if a < 5 then ⟨a, 1, 0, 20, 5, ThreadState.Ready, 0⟩
  else if a < 8 then ⟨a, 2, 0, 20, 5, ThreadState.Ready, 0⟩
  else ⟨8, 0, 0, 20, 5, ThreadState.Ready, 0⟩

/-- C2: `add_thread` does **not** choose a CPU of minimal load.  With
per-CPU ready-list loads `[0, 5, 3]` the guard
`min_loads - tmp_cpu_loads > 0` (wrapping `usize` subtraction, i.e.
"`min_loads ≠ tmp_cpu_loads`") makes the loop settle on CPU 2 (load 3)
although CPU 0 has load 0. -/
theorem addThread_chooses_nonminimal_cpu :
    ((addThread c2heap [0, 1, 2, 3, 4, 5, 6, 7] 3 8).1 8).cpu_id = 2 ∧
    cpuLoad c2heap [0, 1, 2, 3, 4, 5, 6, 7] 0 = 0 ∧
    cpuLoad c2heap [0, 1, 2, 3, 4, 5, 6, 7] 2 = 3 ∧
    (addThread c2heap [0, 1, 2, 3, 4, 5, 6, 7] 3 8).2 =
      [0, 1, 2, 3, 4, 5, 6, 7, 8] := by decide

/-! ## Scheduler theorems (claims C1, C3) -/

/-- Heap for the C1 counterexample: the current thread (address 0) is
`Waiting` with positive `vruntime`; address 1 holds a `Ready` thread on the
same CPU with a different id. -/
def c1heap : Nat → ThreadM := fun a =>
  if a = 0 then ⟨0, 0, 0, 10, 6, ThreadState.Waiting, 0⟩
  else ⟨1, 0, 0, 10, 5, ThreadState.Ready, 7⟩

/-- C1 (counterexample): after the step-1 decrement the current thread has
`vruntime = 5 > 0` and state `Waiting` — not `Running`/`Ready`, so by the
claim the scheduler should pick the next thread (and an eligible `Ready`
thread is on the ready list) — yet `schedule` restores the FPU and returns
the same context pointer: the code only switches on
`vruntime <= 0 || state == Terminated`. -/
theorem schedule_waiting_no_switch :
    (schedStep1 c1heap 0 100 0).vruntime = 5 ∧
    (schedStep1 c1heap 0 100 0).state = ThreadState.Waiting ∧
    (schedStep1 c1heap 0 100 1).state = ThreadState.Ready ∧
    (schedStep1 c1heap 0 100 1).cpu_id = 0 ∧
    (schedStep1 c1heap 0 100 1).id ≠ (schedStep1 c1heap 0 100 0).id ∧
    (1 : Nat) ∈ [0, 1] ∧
    (schedule c1heap [0, 1] 0 100 0).outcome = SchedOutcome.same ∧
    (schedule c1heap [0, 1] 0 100 0).ret = 100 := by decide

/-- At most one `Running` thread per CPU, over the ready list. -/
def SchedInv (heap : Nat → ThreadM) (ts : List Nat) : Prop :=
  ts.Pairwise fun a b =>
    (heap a).state = ThreadState.Running → (heap b).state = ThreadState.Running →
      (heap a).cpu_id ≠ (heap b).cpu_id

instance (heap : Nat → ThreadM) (ts : List Nat) : Decidable (SchedInv heap ts) := by
  unfold SchedInv; infer_instance

/-- Heap for the C3 counterexample: address 0 is CPU 0's init thread
(`Running`, `cpu_id = 0`), address 1 a kernel thread balanced onto CPU 1
(`Ready`); address 2 is free for the new thread. -/
def c3heap : Nat → ThreadM := fun a =>
  if a = 0 then ⟨0, 0, 0, 1, 3, ThreadState.Running, 0⟩
  else if a = 1 then ⟨1, 1, 0, 10, 9, ThreadState.Ready, 0⟩
  else ⟨9, 9, 9, 1, 0, ThreadState.Ready, 0⟩

/-- C3 (counterexample): the "at most one `Running` thread per CPU"
invariant is **not** preserved by `Thread::new_init_thread`.  CPU 1's
init thread is created `Running` with `cpu_id = 1`, but `add_thread`
rebalances it onto CPU 0 (both CPUs carry one ready-list thread), which
already has a `Running` thread. -/
theorem newInitThread_breaks_running_invariant :
    SchedInv c3heap [0, 1] ∧
    ¬ SchedInv (newInitThread c3heap [0, 1] 2 2 2 1 0).1
        (newInitThread c3heap [0, 1] 2 2 2 1 0).2 := by decide

/-! ## Frame allocator evaluations (claims C5, C6) -/

/-- C5: `deallocate_frame` never increments `usable_frames`, so the
invariant `usable_frames = popcount(bitmap)` is broken durably, not just
transiently: starting from an empty one-byte bitmap (`usable_frames = 0 =
popcount`), deallocating frame 0 sets a bit and leaves the counter at 0. -/
theorem deallocateFrame_breaks_popcount_invariant :
    (⟨⟨[0]⟩, 0, 0⟩ : FrameAlloc).usable_frames = Bitmap.popcount ⟨[0]⟩ ∧
    (deallocateFrame ⟨⟨[0]⟩, 0, 0⟩ 0).usable_frames = 0 ∧
    Bitmap.popcount (deallocateFrame ⟨⟨[0]⟩, 0, 0⟩ 0).bitmap = 1 := by decide

/-! ## Scheduler lemmas -/

/-- The spec's description of `get_next`'s choice: the **first** ready-list
entry with `state = Ready`, `cpu_id` = this CPU and id ≠ the current
thread's id. -/
def isNextCandidate (heap : Nat → ThreadM) (cpu_id curThreadId a : Nat) : Bool :=
  decide ((heap a).state = ThreadState.Ready ∧ (heap a).cpu_id = cpu_id ∧
    (heap a).id ≠ curThreadId)

/-- The spec's description of `get_next`'s result. -/
def specFirstCandidate (heap : Nat → ThreadM) (cpu_id curThreadId : Nat)
    (ts : List Nat) : Option Nat :=
  ts.find? (isNextCandidate heap cpu_id curThreadId)

theorem hupdate_self (heap : Nat → ThreadM) (a : Nat) (v : ThreadM) :
    hupdate heap a v a = v := by simp [hupdate]

theorem hupdate_ne (heap : Nat → ThreadM) (a : Nat) (v : ThreadM) (x : Nat)
    (h : x ≠ a) : hupdate heap a v x = heap x := by simp [hupdate, h]

theorem schedStep1_state (heap : Nat → ThreadM) (cur context a : Nat) :
    (schedStep1 heap cur context a).state = (heap a).state := by
  unfold schedStep1 hupdate
  by_cases h : a = cur
  · subst h; simp
  · simp [h]

theorem schedStep1_cpu (heap : Nat → ThreadM) (cur context a : Nat) :
    (schedStep1 heap cur context a).cpu_id = (heap a).cpu_id := by
  unfold schedStep1 hupdate
  by_cases h : a = cur
  · subst h; simp
  · simp [h]

theorem schedStep1_id (heap : Nat → ThreadM) (cur context a : Nat) :
    (schedStep1 heap cur context a).id = (heap a).id := by
  unfold schedStep1 hupdate
  by_cases h : a = cur
  · subst h; simp
  · simp [h]

theorem getNextAux_snd_perm (heap : Nat → ThreadM) (cpu_id curThreadId : Nat) :
    ∀ fuel ts, ((getNextAux heap cpu_id curThreadId fuel ts).2).Perm ts := by
  intro fuel
  induction fuel with
  | zero => intro ts; simp [getNextAux]
  | succ fuel ih =>
    intro ts
    cases ts with
    | nil => simp [getNextAux]
    | cons a rest =>
      have hrot : (rest ++ [a]).Perm (a :: rest) := List.perm_append_singleton a rest
      unfold getNextAux
      split
      · exact hrot
      · exact (ih (rest ++ [a])).trans hrot

theorem getNextAux_fst (heap : Nat → ThreadM) (cpu_id curThreadId : Nat) :
    ∀ fuel ts, fuel ≤ ts.length →
      (getNextAux heap cpu_id curThreadId fuel ts).1 =
        (ts.take fuel).find? (isNextCandidate heap cpu_id curThreadId) := by
  intro fuel
  induction fuel with
  | zero => intro ts _; simp [getNextAux]
  | succ fuel ih =>
    intro ts hle
    cases ts with
    | nil => simp [getNextAux]
    | cons a rest =>
      have hle' : fuel ≤ rest.length := Nat.succ_le_succ_iff.mp hle
      rw [List.take_succ_cons]
      unfold getNextAux
      by_cases hc : (heap a).state = ThreadState.Ready ∧ (heap a).cpu_id = cpu_id ∧
          (heap a).id ≠ curThreadId
      · rw [if_pos hc, List.find?_cons_of_pos _ (by simp [isNextCandidate, hc])]
      · rw [if_neg hc, List.find?_cons_of_neg _ (by simp [isNextCandidate, hc]),
          ih (rest ++ [a]) (le_trans hle' (by simp)),
          List.take_append_of_le_length hle']

theorem getNext_fst (heap : Nat → ThreadM) (ts : List Nat) (cpu_id curThreadId : Nat) :
    (getNext heap ts cpu_id curThreadId).1 =
      specFirstCandidate heap cpu_id curThreadId ts := by
  unfold getNext specFirstCandidate
  rw [getNextAux_fst heap cpu_id curThreadId ts.length ts (le_refl _), List.take_length]

theorem getNext_snd_perm (heap : Nat → ThreadM) (ts : List Nat)
    (cpu_id curThreadId : Nat) : ((getNext heap ts cpu_id curThreadId).2).Perm ts :=
  getNextAux_snd_perm heap cpu_id curThreadId ts.length ts

/-- C1 (amended): after step 1's decrement, `schedule` restores the FPU and
returns the same context pointer (no switch) iff the current thread has
`vruntime > 0` and its state is **not `Terminated`** (so also for `Waiting`
or `Blocked` with positive vruntime), or its state is not `Terminated` and
no eligible next thread exists; whenever it does switch, the thread it
picks is the first ready-list entry with `state = Ready`, `cpu_id` equal to
this CPU, and id different from the current thread's. -/
theorem schedule_same_context_characterization (heap : Nat → ThreadM)
    (ts : List Nat) (cur context cpu_id : Nat) :
    ((schedule heap ts cur context cpu_id).outcome = SchedOutcome.same ↔
      (0 < (schedStep1 heap cur context cur).vruntime ∧
        (schedStep1 heap cur context cur).state ≠ ThreadState.Terminated) ∨
      ((schedStep1 heap cur context cur).state ≠ ThreadState.Terminated ∧
        specFirstCandidate (schedStep1 heap cur context) cpu_id
          ((schedStep1 heap cur context cur).id) ts = none)) ∧
    ((schedule heap ts cur context cpu_id).outcome = SchedOutcome.same →
      (schedule heap ts cur context cpu_id).ret = context) ∧
    (∀ naddr, (schedule heap ts cur context cpu_id).outcome =
        SchedOutcome.switched naddr →
      specFirstCandidate (schedStep1 heap cur context) cpu_id
        ((schedStep1 heap cur context cur).id) ts = some naddr) := by
  have hfst := getNext_fst (schedStep1 heap cur context) ts cpu_id
    ((schedStep1 heap cur context cur).id)
  unfold schedule
  by_cases hb : (schedStep1 heap cur context cur).vruntime ≤ 0 ∨
      (schedStep1 heap cur context cur).state = ThreadState.Terminated
  · rw [if_pos hb]
    rcases hgn : getNext (schedStep1 heap cur context) ts cpu_id
        ((schedStep1 heap cur context cur).id) with ⟨o, ts2⟩
    rw [hgn] at hfst
    cases o with
    | none =>
      dsimp only
      by_cases ht : (schedStep1 heap cur context cur).state = ThreadState.Terminated
      · rw [if_pos ht]
        refine ⟨⟨fun hcon => absurd hcon (by simp), ?_⟩,
          fun hcon => absurd hcon (by simp), fun naddr hcon => absurd hcon (by simp)⟩
        rintro (⟨_, hne⟩ | ⟨hne, _⟩) <;> exact absurd ht hne
      · rw [if_neg ht]
        exact ⟨⟨fun _ => Or.inr ⟨ht, hfst.symm⟩, fun _ => rfl⟩, fun _ => rfl,
          fun naddr hcon => absurd hcon (by simp)⟩
    | some naddr =>
      dsimp only
      refine ⟨⟨fun hcon => absurd hcon (by simp), ?_⟩,
        fun hcon => absurd hcon (by simp), ?_⟩
      · rintro (⟨hpos, hne⟩ | ⟨hne, hnone⟩)
        · rcases hb with hle | hterm
          · omega
          · exact absurd hterm hne
        · rw [← hfst] at hnone
          simp at hnone
      · intro n hn
        have heq : naddr = n := by simpa using hn
        subst heq
        rw [← hfst]
  · rw [if_neg hb]
    push_neg at hb
    dsimp only
    exact ⟨⟨fun _ => Or.inl ⟨hb.1, hb.2⟩, fun _ => rfl⟩, fun _ => rfl,
      fun naddr hcon => absurd hcon (by simp)⟩

/-! ## Invariant preservation (claim C3, amended part) -/

theorem runningExcl_symmetric (h : Nat → ThreadM) {x y : Nat} :
    ((h x).state = ThreadState.Running → (h y).state = ThreadState.Running →
      (h x).cpu_id ≠ (h y).cpu_id) →
    ((h y).state = ThreadState.Running → (h x).state = ThreadState.Running →
      (h y).cpu_id ≠ (h x).cpu_id) :=
  fun hab hb ha => Ne.symm (hab ha hb)

theorem schedInv_schedStep1 (heap : Nat → ThreadM) (ts : List Nat)
    (cur context : Nat) (hinv : SchedInv heap ts) :
    SchedInv (schedStep1 heap cur context) ts := by
  refine hinv.imp ?_
  intro a b hab hra hrb
  rw [schedStep1_state] at hra hrb
  rw [schedStep1_cpu, schedStep1_cpu]
  exact hab hra hrb

theorem promoteNext_cpu (heap1 : Nat → ThreadM) (naddr x : Nat) :
    (promoteNext heap1 naddr x).cpu_id = (heap1 x).cpu_id := by
  unfold promoteNext
  by_cases h : x = naddr
  · subst h; rw [hupdate_self]
  · rw [hupdate_ne _ _ _ _ h]

theorem demoteLast_cpu (heap2 : Nat → ThreadM) (cur x : Nat) :
    (demoteLast heap2 cur x).cpu_id = (heap2 x).cpu_id := by
  unfold demoteLast
  split
  · by_cases h : x = cur
    · subst h; rw [hupdate_self]
    · rw [hupdate_ne _ _ _ _ h]
  · rfl

theorem demoteLast_promote_naddr (heap1 : Nat → ThreadM) (cur naddr : Nat)
    (hne : naddr ≠ cur) :
    (demoteLast (promoteNext heap1 naddr) cur naddr).state = ThreadState.Running := by
  unfold demoteLast
  split
  · rw [hupdate_ne _ _ _ _ hne]
    unfold promoteNext
    rw [hupdate_self]
  · unfold promoteNext
    rw [hupdate_self]

theorem demoteLast_promote_other (heap1 : Nat → ThreadM) (cur naddr x : Nat)
    (hne : naddr ≠ cur) (hx : x ≠ naddr)
    (hrun : (demoteLast (promoteNext heap1 naddr) cur x).state = ThreadState.Running) :
    (heap1 x).state = ThreadState.Running ∧ x ≠ cur := by
  unfold demoteLast at hrun
  by_cases hd : (promoteNext heap1 naddr cur).state = ThreadState.Running
  · rw [if_pos hd] at hrun
    by_cases hc : x = cur
    · subst hc
      rw [hupdate_self] at hrun
      exact absurd hrun (by simp)
    · rw [hupdate_ne _ _ _ _ hc] at hrun
      unfold promoteNext at hrun
      rw [hupdate_ne _ _ _ _ hx] at hrun
      exact ⟨hrun, hc⟩
  · rw [if_neg hd] at hrun
    unfold promoteNext at hrun hd
    rw [hupdate_ne _ _ _ _ hx] at hrun
    rw [hupdate_ne _ _ _ _ (Ne.symm hne)] at hd
    constructor
    · exact hrun
    · intro hc; subst hc; exact hd hrun

/-- The heart of the preservation argument: promoting the eligible next
thread to `Running` and demoting the previous `Running` current thread
keeps at most one `Running` thread per CPU, given that the only `Running`
thread on this CPU is the current one. -/
theorem pairwise_running_after_switch (heap1 : Nat → ThreadM) (ts : List Nat)
    (cur naddr cpu_id : Nat)
    (hinv : ts.Pairwise fun a b =>
      (heap1 a).state = ThreadState.Running → (heap1 b).state = ThreadState.Running →
        (heap1 a).cpu_id ≠ (heap1 b).cpu_id)
    (hid : ts.Pairwise fun a b => (heap1 a).id ≠ (heap1 b).id)
    (hcur : ∀ a ∈ ts, (heap1 a).state = ThreadState.Running →
        (heap1 a).cpu_id = cpu_id → (heap1 a).id = (heap1 cur).id)
    (hcuraddr : ∀ a ∈ ts, (heap1 a).id = (heap1 cur).id → a = cur)
    (hncpu : (heap1 naddr).cpu_id = cpu_id)
    (hnid : (heap1 naddr).id ≠ (heap1 cur).id) :
    ts.Pairwise fun a b =>
      (demoteLast (promoteNext heap1 naddr) cur a).state = ThreadState.Running →
      (demoteLast (promoteNext heap1 naddr) cur b).state = ThreadState.Running →
        (demoteLast (promoteNext heap1 naddr) cur a).cpu_id ≠
          (demoteLast (promoteNext heap1 naddr) cur b).cpu_id := by
  have hne : naddr ≠ cur := fun hcon => hnid (by rw [hcon])
  refine (hinv.and hid).imp_of_mem ?_
  intro a b ha hb hab hra hrb
  obtain ⟨hexcl, hidab⟩ := hab
  rw [demoteLast_cpu, demoteLast_cpu, promoteNext_cpu, promoteNext_cpu]
  by_cases han : a = naddr
  · by_cases hbn : b = naddr
    · rw [han, hbn] at hidab
      exact absurd rfl hidab
    · obtain ⟨hbrun, hbne⟩ := demoteLast_promote_other heap1 cur naddr b hne hbn hrb
      intro hcpu
      rw [han] at hcpu
      have hbcpu : (heap1 b).cpu_id = cpu_id := by rw [← hcpu, hncpu]
      exact hbne (hcuraddr b hb (hcur b hb hbrun hbcpu))
  · by_cases hbn : b = naddr
    · obtain ⟨harun, hane⟩ := demoteLast_promote_other heap1 cur naddr a hne han hra
      intro hcpu
      rw [hbn] at hcpu
      have hacpu : (heap1 a).cpu_id = cpu_id := by rw [hcpu, hncpu]
      exact hane (hcuraddr a ha (hcur a ha harun hacpu))
    · obtain ⟨harun, _⟩ := demoteLast_promote_other heap1 cur naddr a hne han hra
      obtain ⟨hbrun, _⟩ := demoteLast_promote_other heap1 cur naddr b hne hbn hrb
      exact hexcl harun hbrun

/-- C3 (amended): `Scheduler::schedule` preserves "at most one `Running`
thread per CPU" — provided thread ids on the ready list are distinct and
the only `Running` thread assigned to this CPU is the scheduler's current
thread — and the signal wake-up hook preserves it unconditionally (it only
ever moves threads **to** `Ready`).  `Thread::new_init_thread` does *not*
preserve it (see the counterexample). -/
theorem schedule_wake_preserve_running_invariant (heap : Nat → ThreadM)
    (ts : List Nat) (cur context cpu_id pid : Nat)
    (hinv : SchedInv heap ts)
    (hid : ts.Pairwise fun a b => (heap a).id ≠ (heap b).id)
    (hcur : ∀ a ∈ ts, (heap a).state = ThreadState.Running →
        (heap a).cpu_id = cpu_id → (heap a).id = (heap cur).id)
    (hcuraddr : ∀ a ∈ ts, (heap a).id = (heap cur).id → a = cur) :
    SchedInv (schedule heap ts cur context cpu_id).heap
      (schedule heap ts cur context cpu_id).threads ∧
    SchedInv (wakeProcess heap pid) ts := by
  constructor
  · have hinv1 := schedInv_schedStep1 heap ts cur context hinv
    have hid1 : ts.Pairwise fun a b =>
        (schedStep1 heap cur context a).id ≠ (schedStep1 heap cur context b).id := by
      refine hid.imp ?_
      intro a b hab
      rw [schedStep1_id, schedStep1_id]
      exact hab
    have hcur1 : ∀ a ∈ ts, (schedStep1 heap cur context a).state = ThreadState.Running →
        (schedStep1 heap cur context a).cpu_id = cpu_id →
        (schedStep1 heap cur context a).id = (schedStep1 heap cur context cur).id := by
      intro a ha hrun hcpu
      rw [schedStep1_state] at hrun
      rw [schedStep1_cpu] at hcpu
      rw [schedStep1_id, schedStep1_id]
      exact hcur a ha hrun hcpu
    have hcuraddr1 : ∀ a ∈ ts,
        (schedStep1 heap cur context a).id = (schedStep1 heap cur context cur).id →
          a = cur := by
      intro a ha hida
      rw [schedStep1_id, schedStep1_id] at hida
      exact hcuraddr a ha hida
    unfold schedule
    by_cases hb : (schedStep1 heap cur context cur).vruntime ≤ 0 ∨
        (schedStep1 heap cur context cur).state = ThreadState.Terminated
    · rw [if_pos hb]
      rcases hgn : getNext (schedStep1 heap cur context) ts cpu_id
          ((schedStep1 heap cur context cur).id) with ⟨o, ts2⟩
      have hperm : ts2.Perm ts := by
        have hp := getNext_snd_perm (schedStep1 heap cur context) ts cpu_id
          ((schedStep1 heap cur context cur).id)
        rw [hgn] at hp
        exact hp
      have hfst := getNext_fst (schedStep1 heap cur context) ts cpu_id
        ((schedStep1 heap cur context cur).id)
      rw [hgn] at hfst
      cases o with
      | none =>
        dsimp only
        by_cases ht : (schedStep1 heap cur context cur).state = ThreadState.Terminated
        · rw [if_pos ht]
          exact (List.Perm.pairwise_iff (runningExcl_symmetric _) hperm).mpr hinv1
        · rw [if_neg ht]
          exact (List.Perm.pairwise_iff (runningExcl_symmetric _) hperm).mpr hinv1
      | some naddr =>
        dsimp only
        have hspec : specFirstCandidate (schedStep1 heap cur context) cpu_id
            ((schedStep1 heap cur context cur).id) ts = some naddr := hfst.symm
        unfold specFirstCandidate at hspec
        have hcand := List.find?_some hspec
        simp only [isNextCandidate, decide_eq_true_eq] at hcand
        obtain ⟨_, hncpu, hnid⟩ := hcand
        refine (List.Perm.pairwise_iff (runningExcl_symmetric _) hperm).mpr ?_
        exact pairwise_running_after_switch (schedStep1 heap cur context) ts cur naddr
          cpu_id hinv1 hid1 hcur1 hcuraddr1 hncpu hnid
    · rw [if_neg hb]
      exact hinv1
  · refine hinv.imp ?_
    intro a b hab hwa hwb
    have hsa : (wakeProcess heap pid a).state = ThreadState.Running →
        (heap a).state = ThreadState.Running := by
      unfold wakeProcess
      split
      · intro hcon; exact absurd hcon (by simp)
      · exact id
    have hsb : (wakeProcess heap pid b).state = ThreadState.Running →
        (heap b).state = ThreadState.Running := by
      unfold wakeProcess
      split
      · intro hcon; exact absurd hcon (by simp)
      · exact id
    have hca : (wakeProcess heap pid a).cpu_id = (heap a).cpu_id := by
      unfold wakeProcess
      split <;> rfl
    have hcb : (wakeProcess heap pid b).cpu_id = (heap b).cpu_id := by
      unfold wakeProcess
      split <;> rfl
    rw [hca, hcb]
    exact hab (hsa hwa) (hsb hwb)

/-- C3 witness: the scheduler step preserves the invariant on a concrete
two-thread state (current thread 0 out of quantum, thread 1 ready). -/
theorem schedule_wake_preserve_running_invariant_witness :
    SchedInv (schedule c3heap [0, 1] 0 100 0).heap
      (schedule c3heap [0, 1] 0 100 0).threads ∧
    SchedInv (wakeProcess c3heap 0) [0, 1] :=
  schedule_wake_preserve_running_invariant c3heap [0, 1] 0 100 0 0
    (by decide) (by decide) (by decide) (by decide)

/-! ## Allocator round-trip (claim C6) -/

/-- C6 (failing run): over the bitmap byte `0b101` (frames 0 and 2 free,
`usable_frames = 2`, `next_frame = 0`), `allocate_frames(1)` hands out
frame 0 and leaves `next_frame = 1` — a frame whose bit is **clear** —
then `allocate_frame` "allocates" that same frame 1 without checking its
bit.  Deallocating both returned frames sets bits 0 **and 1**, so the
final bitmap `0b111` differs from the initial `0b101`: the
allocate/deallocate round trip does not restore the set bits. -/
theorem alloc_dealloc_roundtrip_changes_bitmap :
    allocateFrames ⟨⟨[5]⟩, 2, 0⟩ 1 = (some 0, ⟨⟨[4]⟩, 1, 1⟩) ∧
    allocateFrame ⟨⟨[4]⟩, 1, 1⟩ = (some 4096, ⟨⟨[4]⟩, 0, 1⟩) ∧
    deallocateFrame (deallocateFrame ⟨⟨[4]⟩, 0, 1⟩ 0) 4096 = ⟨⟨[7]⟩, 0, 1⟩ ∧
    (⟨[5]⟩ : Bitmap).get 1 = false ∧ (⟨[7]⟩ : Bitmap).get 1 = true := by
  have hscan : scanRun ⟨[5]⟩ 1 0 0 = (1, true) := by
    unfold scanRun
    rw [dif_pos (by decide : 0 < Bitmap.len ⟨[5]⟩ ∧ Bitmap.get ⟨[5]⟩ 0 = true)]
    norm_num
  have hfind : findNextSet ⟨[4]⟩ 2 = 1 := by
    unfold findNextSet
    rw [dif_neg (by decide : ¬ 2 < Bitmap.len ⟨[4]⟩)]
    decide
  refine ⟨?_, ?_, by decide, by decide, by decide⟩
  · unfold allocateFrames
    rw [if_neg (by decide)]
    dsimp only
    rw [hscan]
    decide
  · unfold allocateFrame
    rw [if_neg (by decide)]
    dsimp only
    have hset : (⟨[4]⟩ : Bitmap).set 1 false = ⟨[4]⟩ := by decide
    rw [hset, hfind]

/-! ## Contiguous allocation (claim C4) -/

/-- C4 (counterexample): `allocate_frames(1)` over the one-byte bitmap
`0b10` returns `None` although bit 1 — a run of one set bit, well inside
the bitmap's bits and with `usable_frames = 1 ≥ 1` — is free.  The scan is
bounded by `Bitmap::len`, which is the **byte** length (1), so bit 1 is
never examined. -/
theorem allocateFrames_misses_existing_run :
    (allocateFrames ⟨⟨[2]⟩, 1, 0⟩ 1).1 = none ∧
    (⟨[2]⟩ : Bitmap).get 1 = true ∧
    1 + 1 ≤ 8 * (⟨[2]⟩ : Bitmap).inner.length ∧
    1 ≤ (⟨[2]⟩ : Bitmap).popcount := by
  have hs0 : scanRun ⟨[2]⟩ 1 0 0 = (0, false) := by
    unfold scanRun
    rw [dif_neg (by decide : ¬(0 < Bitmap.len ⟨[2]⟩ ∧ Bitmap.get ⟨[2]⟩ 0 = true))]
  have hz : skipZeros ⟨[2]⟩ 0 = 1 := by
    unfold skipZeros
    rw [dif_pos (by decide : 0 < Bitmap.len ⟨[2]⟩ ∧ Bitmap.get ⟨[2]⟩ 0 = false)]
    show skipZeros ⟨[2]⟩ 1 = 1
    unfold skipZeros
    rw [dif_neg (by decide : ¬(1 < Bitmap.len ⟨[2]⟩ ∧ Bitmap.get ⟨[2]⟩ 1 = false))]
  have hs1 : scanRun ⟨[2]⟩ 1 1 0 = (1, false) := by
    unfold scanRun
    rw [dif_neg (by decide : ¬(1 < Bitmap.len ⟨[2]⟩ ∧ Bitmap.get ⟨[2]⟩ 1 = true))]
  have hl1 : allocLoop ⟨[2]⟩ 1 1 = none := by
    unfold allocLoop
    rw [dif_neg (by decide : ¬ 1 < Bitmap.len ⟨[2]⟩)]
  have hl0 : allocLoop ⟨[2]⟩ 1 0 = none := by
    unfold allocLoop
    rw [dif_pos (by decide : 0 < Bitmap.len ⟨[2]⟩)]
    rw [hz, hs1]
    simpa using hl1
  refine ⟨?_, by decide, by decide, by decide⟩
  unfold allocateFrames
  rw [if_neg (by decide)]
  dsimp only
  rw [hs0]
  dsimp only
  rw [hl0]
  decide

/-! ## Page-table clone lemmas (claim C7) -/

theorem cloneRec_next_mono (level : Nat) (idxs : List Nat) (m : PTMem)
    (next src tgt : Nat) : next ≤ (cloneRec level idxs m next src tgt).2 := by
  induction level, idxs, m, next, src, tgt using cloneRec.induct with
  | case1 => simp [cloneRec]
  | case2 => simp [cloneRec]
  | case3 l i rest m next srcAddr tgtAddr hcond ih =>
    rw [cloneRec, if_pos hcond]
    exact ih
  | case4 l i rest m next srcAddr tgtAddr hcond ih1 ih2 =>
    rw [cloneRec, if_neg hcond]
    have h1 := ih1
    have h2 := ih2
    omega


theorem writePT_self (m : PTMem) (t i : Nat) (e : PTEntry) : writePT m t i e t i = e := by
  simp [writePT]

theorem writePT_other (m : PTMem) (t i : Nat) (e : PTEntry) (a j : Nat)
    (h : a ≠ t ∨ j ≠ i) : writePT m t i e a j = m a j := by
  unfold writePT
  rcases h with h | h <;> simp [h]

theorem cloneRec_frame (level : Nat) (idxs : List Nat) (m : PTMem)
    (next src tgt : Nat) :
    ∀ a, a ≠ tgt → a < next → ∀ j,
      (cloneRec level idxs m next src tgt).1 a j = m a j := by
  induction level, idxs, m, next, src, tgt using cloneRec.induct with
  | case1 => intros; simp [cloneRec]
  | case2 => intros; simp [cloneRec]
  | case3 l i rest m next srcAddr tgtAddr hcond ih =>
    intro a hat hlt j
    rw [cloneRec, if_pos hcond, ih a hat hlt j]
    exact writePT_other _ _ _ _ _ _ (Or.inl hat)
  | case4 l i rest m next srcAddr tgtAddr hcond ih1 ih2 =>
    intro a hat hlt j
    have hmono := cloneRec_next_mono l (List.range 512)
      (writePT m tgtAddr i { addr := next, flags := (m srcAddr i).flags })
      (next + 1) (m srcAddr i).addr next
    rw [cloneRec, if_neg hcond]
    rw [ih2 a hat (by omega) j]
    rw [ih1 a (by omega) (by omega) j]
    exact writePT_other _ _ _ _ _ _ (Or.inl hat)

theorem cloneRec_tgt_frame (level : Nat) (idxs : List Nat) (m : PTMem)
    (next src tgt : Nat) :
    tgt < next → ∀ i, i ∉ idxs →
      (cloneRec level idxs m next src tgt).1 tgt i = m tgt i := by
  induction level, idxs, m, next, src, tgt using cloneRec.induct with
  | case1 => intros; simp [cloneRec]
  | case2 => intros; simp [cloneRec]
  | case3 l i rest m next srcAddr tgtAddr hcond ih =>
    intro htgt j hj
    rw [cloneRec, if_pos hcond, ih htgt j (fun hc => hj (List.mem_cons_of_mem _ hc))]
    exact writePT_other _ _ _ _ _ _ (Or.inr (fun hc => hj (hc ▸ List.mem_cons_self _ _)))
  | case4 l i rest m next srcAddr tgtAddr hcond ih1 ih2 =>
    intro htgt j hj
    have hmono := cloneRec_next_mono l (List.range 512)
      (writePT m tgtAddr i { addr := next, flags := (m srcAddr i).flags })
      (next + 1) (m srcAddr i).addr next
    rw [cloneRec, if_neg hcond]
    rw [ih2 (by omega) j (fun hc => hj (List.mem_cons_of_mem _ hc))]
    rw [cloneRec_frame l (List.range 512) _ (next + 1) (m srcAddr i).addr next
      tgtAddr (by omega) (by omega) j]
    exact writePT_other _ _ _ _ _ _ (Or.inr (fun hc => hj (hc ▸ List.mem_cons_self _ _)))

theorem cloneRec_entries (level : Nat) (idxs : List Nat) (m : PTMem)
    (next src tgt : Nat) :
    level ≠ 0 → tgt < next → src < next → src ≠ tgt → idxs.Nodup →
    ∀ i ∈ idxs,
      ((level = 1 ∨ (m src i).isUnused = true ∨ (m src i).isHuge = true) →
        (cloneRec level idxs m next src tgt).1 tgt i = m src i) ∧
      (¬(level = 1 ∨ (m src i).isUnused = true ∨ (m src i).isHuge = true) →
        ∃ f, next ≤ f ∧
          (cloneRec level idxs m next src tgt).1 tgt i = ⟨f, (m src i).flags⟩) := by
  induction level, idxs, m, next, src, tgt using cloneRec.induct with
  | case1 => intro _ _ _ _ _ i hi; exact absurd hi (List.not_mem_nil i)
  | case2 => intro hl; exact absurd rfl hl
  | case3 l i rest m next srcAddr tgtAddr hcond ih =>
    intro hl htgt hsrc hst hnodup j hj
    rcases List.mem_cons.mp hj with hji | hjr
    · subst hji
      constructor
      · intro _
        rw [cloneRec, if_pos hcond]
        rw [cloneRec_tgt_frame _ _ _ _ _ _ htgt j (List.Nodup.not_mem hnodup)]
        exact writePT_self _ _ _ _
      · intro hcon
        exact absurd hcond hcon
    · have heq : writePT m tgtAddr i (m srcAddr i) srcAddr j = m srcAddr j :=
        writePT_other _ _ _ _ _ _ (Or.inl hst)
      have := ih hl htgt hsrc hst (List.Nodup.of_cons hnodup) j hjr
      rw [heq] at this
      rw [cloneRec, if_pos hcond]
      exact this
  | case4 l i rest m next srcAddr tgtAddr hcond ih1 ih2 =>
    intro hl htgt hsrc hst hnodup j hj
    have hmono := cloneRec_next_mono l (List.range 512)
      (writePT m tgtAddr i { addr := next, flags := (m srcAddr i).flags })
      (next + 1) (m srcAddr i).addr next
    rcases List.mem_cons.mp hj with hji | hjr
    · subst hji
      constructor
      · intro hcon
        exact absurd hcon hcond
      · intro _
        refine ⟨next, le_refl next, ?_⟩
        rw [cloneRec, if_neg hcond]
        rw [cloneRec_tgt_frame _ _ _ _ _ _ (by omega) j (List.Nodup.not_mem hnodup)]
        rw [cloneRec_frame l (List.range 512) _ (next + 1) (m srcAddr j).addr next
          tgtAddr (by omega) (by omega) j]
        exact writePT_self _ _ _ _
    · have heqsrc : ∀ jj, (cloneRec l (List.range 512)
          (writePT m tgtAddr i { addr := next, flags := (m srcAddr i).flags })
          (next + 1) (m srcAddr i).addr next).1 srcAddr jj = m srcAddr jj := by
        intro jj
        rw [cloneRec_frame l (List.range 512) _ (next + 1) (m srcAddr i).addr next
          srcAddr (by omega) (by omega) jj]
        exact writePT_other _ _ _ _ _ _ (Or.inl hst)
      have := ih2 hl (by omega) (by omega) hst (List.Nodup.of_cons hnodup) j hjr
      rw [heqsrc j] at this
      rw [cloneRec, if_neg hcond]
      refine ⟨this.1, fun hcon => ?_⟩
      obtain ⟨f, hf, hval⟩ := this.2 hcon
      exact ⟨f, by omega, hval⟩


/-- C7: cloning a page table duplicates every used, non-huge entry at
levels 4 down to 2 into freshly allocated tables (addresses the allocator
had not handed out before), while level-1 entries, huge-tagged entries and
unused entries are copied by value; the source's level-4 table is untouched
by the clone, and mutating any level-4 entry of the clone leaves every
level-4 entry of the source unchanged. -/
theorem pageTable_clone_spec (m : PTMem) (next srcAddr : Nat) (hsrc : srcAddr < next) :
    (newFromAddress m next srcAddr).2.2 = next ∧
    (∀ i ∈ List.range 512,
      (((m srcAddr i).isUnused = true ∨ (m srcAddr i).isHuge = true) →
        (newFromAddress m next srcAddr).1 next i = m srcAddr i) ∧
      (¬((m srcAddr i).isUnused = true ∨ (m srcAddr i).isHuge = true) →
        ∃ f, next < f ∧
          (newFromAddress m next srcAddr).1 next i = ⟨f, (m srcAddr i).flags⟩)) ∧
    (∀ i, (newFromAddress m next srcAddr).1 srcAddr i = m srcAddr i) ∧
    (∀ j e i, writePT (newFromAddress m next srcAddr).1 next j e srcAddr i = m srcAddr i) ∧
    (∀ level idxs (mm : PTMem) (nx src tgt : Nat),
      level ≠ 0 → tgt < nx → src < nx → src ≠ tgt → idxs.Nodup → ∀ i ∈ idxs,
      ((level = 1 ∨ (mm src i).isUnused = true ∨ (mm src i).isHuge = true) →
        (cloneRec level idxs mm nx src tgt).1 tgt i = mm src i) ∧
      (¬(level = 1 ∨ (mm src i).isUnused = true ∨ (mm src i).isHuge = true) →
        ∃ f, nx ≤ f ∧
          (cloneRec level idxs mm nx src tgt).1 tgt i = ⟨f, (mm src i).flags⟩)) := by
  refine ⟨rfl, ?_, ?_, ?_, cloneRec_entries⟩
  · intro i hi
    have h4 := cloneRec_entries 4 (List.range 512) m (next + 1) srcAddr next
      (by omega) (by omega) (by omega) (Nat.ne_of_lt hsrc) (List.nodup_range 512) i hi
    constructor
    · intro hcase
      exact h4.1 (Or.inr hcase)
    · intro hcase
      have hne : ¬((4 : Nat) = 1 ∨ (m srcAddr i).isUnused = true ∨
          (m srcAddr i).isHuge = true) := by
        rintro (h41 | hrest)
        · exact absurd h41 (by norm_num)
        · exact hcase hrest
      obtain ⟨f, hf, hval⟩ := h4.2 hne
      exact ⟨f, by omega, hval⟩
  · intro i
    exact cloneRec_frame 4 (List.range 512) m (next + 1) srcAddr next srcAddr
      (Nat.ne_of_lt hsrc) (by omega) i
  · intro j e i
    rw [writePT_other _ _ _ _ _ _ (Or.inl (Nat.ne_of_lt hsrc))]
    exact cloneRec_frame 4 (List.range 512) m (next + 1) srcAddr next srcAddr
      (Nat.ne_of_lt hsrc) (by omega) i

/-- C7 witness: cloning from an all-unused table at address 0 with the
allocator at 1, then overwriting entry 0 of the clone's root, leaves the
source's entry 0 unchanged. -/
theorem pageTable_clone_spec_witness :
    writePT (newFromAddress (fun _ _ => ⟨0, 0⟩) 1 0).1 1 0 ⟨77, 3⟩ 0 0 = ⟨0, 0⟩ :=
  (pageTable_clone_spec (fun _ _ => ⟨0, 0⟩) 1 0 (by decide)).2.2.2.1 0 ⟨77, 3⟩ 0

/-! ## Contiguous-allocation characterization (claim C4, amended part) -/

/-- Spec-side: a run of `cnt` consecutive set bits starting at or after
`lo`, within the scan bound the code uses — `Bitmap::len`, the **byte**
length of the buffer. -/
def specRunExists (bm : Bitmap) (lo cnt : Nat) : Prop :=
  ∃ s, lo ≤ s ∧ s + cnt ≤ bm.len ∧ ∀ j, s ≤ j → j < s + cnt → bm.get j = true

theorem scanRun_found (bm : Bitmap) (cnt : Nat) :
    ∀ next fc n', scanRun bm cnt next fc = (n', true) → fc < cnt →
      n' = next + (cnt - fc) ∧ n' ≤ bm.len ∧
      ∀ j, next ≤ j → j < n' → bm.get j = true := by
  intro next fc
  induction next, fc using scanRun.induct bm cnt with
  | case1 next fc h hfc =>
    intro n' heq _
    rw [scanRun, dif_pos h, if_pos hfc] at heq
    have hn : next + 1 = n' := congrArg Prod.fst heq
    subst hn
    refine ⟨by omega, by omega, ?_⟩
    intro j hj hj'
    have : j = next := by omega
    subst this
    exact h.2
  | case2 next fc h hfc ih =>
    intro n' heq hfclt
    rw [scanRun, dif_pos h, if_neg hfc] at heq
    have hfc1 : fc + 1 < cnt := by
      rcases Nat.lt_or_ge (fc + 1) cnt with hlt | hge
      · exact hlt
      · exact absurd (by omega : fc + 1 = cnt) hfc
    obtain ⟨hn', hlen, hbits⟩ := ih n' heq hfc1
    refine ⟨by omega, hlen, ?_⟩
    intro j hj hj'
    by_cases hje : j = next
    · subst hje; exact h.2
    · exact hbits j (by omega) hj'
  | case3 next fc h =>
    intro n' heq _
    rw [scanRun, dif_neg h] at heq
    exact absurd (congrArg Prod.snd heq) (by simp)

theorem scanRun_not_found (bm : Bitmap) (cnt : Nat) :
    ∀ next fc n', scanRun bm cnt next fc = (n', false) → fc < cnt →
      next ≤ n' ∧ n' - next < cnt - fc ∧
      (bm.len ≤ n' ∨ bm.get n' = false) ∧
      ∀ j, next ≤ j → j < n' → bm.get j = true := by
  intro next fc
  induction next, fc using scanRun.induct bm cnt with
  | case1 next fc h hfc =>
    intro n' heq _
    rw [scanRun, dif_pos h, if_pos hfc] at heq
    exact absurd (congrArg Prod.snd heq) (by simp)
  | case2 next fc h hfc ih =>
    intro n' heq hfclt
    rw [scanRun, dif_pos h, if_neg hfc] at heq
    have hfc1 : fc + 1 < cnt := by
      rcases Nat.lt_or_ge (fc + 1) cnt with hlt | hge
      · exact hlt
      · exact absurd (by omega : fc + 1 = cnt) hfc
    obtain ⟨hge, hlt, hstop, hbits⟩ := ih n' heq hfc1
    refine ⟨by omega, by omega, hstop, ?_⟩
    intro j hj hj'
    by_cases hje : j = next
    · subst hje; exact h.2
    · exact hbits j (by omega) hj'
  | case3 next fc h =>
    intro n' heq hfclt
    rw [scanRun, dif_neg h] at heq
    obtain rfl : next = n' := congrArg Prod.fst heq
    rw [not_and_or] at h
    refine ⟨le_refl _, by omega, ?_, ?_⟩
    · rcases h with h | h
      · exact Or.inl (by omega)
      · exact Or.inr (Bool.not_eq_true _ ▸ h)
    · intro j hj hj'; omega

theorem skipZeros_spec (bm : Bitmap) :
    ∀ next, next ≤ skipZeros bm next ∧
      (bm.len ≤ skipZeros bm next ∨ bm.get (skipZeros bm next) = true) ∧
      ∀ j, next ≤ j → j < skipZeros bm next → bm.get j = false := by
  intro next
  induction next using skipZeros.induct bm with
  | case1 next h ih =>
    rw [skipZeros, dif_pos h]
    obtain ⟨hge, hstop, hbits⟩ := ih
    refine ⟨by omega, hstop, ?_⟩
    intro j hj hj'
    by_cases hje : j = next
    · subst hje; exact h.2
    · exact hbits j (by omega) hj'
  | case2 next h =>
    rw [skipZeros, dif_neg h]
    rw [not_and_or] at h
    refine ⟨le_refl _, ?_, ?_⟩
    · rcases h with h | h
      · exact Or.inl (by omega)
      · exact Or.inr (Bool.not_eq_false _ ▸ h)
    · intro j hj hj'; omega

/-- A run cannot start at or before a too-short maximal run of set bits:
the stop position `q` (end of bitmap window or a clear bit) falls inside
any window of `cnt` bits starting in `[p, q]`. -/
theorem no_run_through_stop (bm : Bitmap) (cnt p q s : Nat)
    (hpq : q - p < cnt) (hstop : bm.len ≤ q ∨ bm.get q = false)
    (hs1 : p ≤ s) (hs2 : s ≤ q) (hlen : s + cnt ≤ bm.len)
    (hrun : ∀ j, s ≤ j → j < s + cnt → bm.get j = true) : False := by
  have hq : q < s + cnt := by omega
  rcases hstop with h | h
  · omega
  · exact absurd (hrun q hs2 hq) (by simp [h])

theorem clearRange_foldl_get :
    ∀ (n lo : Nat) (bm : Bitmap), lo + n ≤ bm.len → ∀ j,
      ((List.range' lo n).foldl (fun b i => b.set i false) bm).get j =
        if lo ≤ j ∧ j < lo + n then false else bm.get j := by
  intro n
  induction n with
  | zero =>
    intro lo bm _ j
    rw [show List.range' lo 0 = [] from rfl, List.foldl_nil, if_neg (by omega)]
  | succ n ih =>
    intro lo bm hle j
    rw [List.range'_succ, List.foldl_cons]
    have hlen : (bm.set lo false).len = bm.len := Bitmap.len_set bm lo false
    rw [ih (lo + 1) (bm.set lo false) (by unfold Bitmap.len at *; omega) j]
    have hdiv : lo / 8 < bm.inner.length := by
      have h1 : lo / 8 ≤ lo := Nat.div_le_self lo 8
      have h2 : lo < bm.inner.length := by unfold Bitmap.len at hle; omega
      omega
    rw [Bitmap.get_set bm lo j false hdiv]
    split_ifs <;> first | rfl | omega

theorem clearRange_get (bm : Bitmap) (lo hi : Nat) (hhi : hi ≤ bm.len) (j : Nat) :
    (clearRange bm lo hi).get j = if lo ≤ j ∧ j < hi then false else bm.get j := by
  unfold clearRange
  by_cases hl : lo ≤ hi
  · rw [clearRange_foldl_get (hi - lo) lo bm (by omega) j,
      Nat.add_sub_cancel' hl]
  · have h0 : hi - lo = 0 := by omega
    rw [h0]
    simp only [List.range', List.foldl_nil]
    rw [if_neg (by omega)]

theorem allocLoop_some (bm : Bitmap) (cnt : Nat) (hcnt : 0 < cnt) :
    ∀ next addr bm', allocLoop bm cnt next = some (addr, bm') →
      ∃ e, cnt ≤ e ∧ e ≤ bm.len ∧ next ≤ e - cnt ∧ addr = (e - cnt) * 4096 ∧
        (∀ j, e - cnt ≤ j → j < e → bm.get j = true) ∧
        bm' = clearRange bm (e - cnt) e := by
  intro next
  induction next using allocLoop.induct bm cnt with
  | case1 next h hfound =>
    intro addr bm' heq
    rw [allocLoop, dif_pos h, if_pos hfound] at heq
    have hpair : scanRun bm cnt (skipZeros bm next) 0 =
        ((scanRun bm cnt (skipZeros bm next) 0).1, true) := by
      rw [← hfound]
    obtain ⟨hend, hlen, hbits⟩ :=
      scanRun_found bm cnt (skipZeros bm next) 0 _ hpair hcnt
    obtain ⟨hskip_ge, -, -⟩ := skipZeros_spec bm next
    have haddr : addr = ((scanRun bm cnt (skipZeros bm next) 0).1 - cnt) * 4096 :=
      (congrArg Prod.fst (Option.some.inj heq)).symm
    have hbm' : bm' = clearRange bm ((scanRun bm cnt (skipZeros bm next) 0).1 - cnt)
        (scanRun bm cnt (skipZeros bm next) 0).1 :=
      (congrArg Prod.snd (Option.some.inj heq)).symm
    refine ⟨(scanRun bm cnt (skipZeros bm next) 0).1, by omega, hlen, by omega,
      haddr, ?_, hbm'⟩
    intro j hj hj'
    exact hbits j (by omega) hj'
  | case2 next h hfound ih =>
    intro addr bm' heq
    rw [allocLoop, dif_pos h, if_neg hfound] at heq
    obtain ⟨e, h1, h2, h3, h4, h5, h6⟩ := ih addr bm' heq
    obtain ⟨hskip_ge, -, -⟩ := skipZeros_spec bm next
    have := scanRun_fst_ge bm cnt (skipZeros bm next) 0
    exact ⟨e, h1, h2, by omega, h4, h5, h6⟩
  | case3 next h =>
    intro addr bm' heq
    rw [allocLoop, dif_neg h] at heq
    exact absurd heq (by simp)

theorem allocLoop_none (bm : Bitmap) (cnt : Nat) (hcnt : 0 < cnt) :
    ∀ next, allocLoop bm cnt next = none →
      ∀ s, next ≤ s → s + cnt ≤ bm.len →
        (∀ j, s ≤ j → j < s + cnt → bm.get j = true) → False := by
  intro next
  induction next using allocLoop.induct bm cnt with
  | case1 next h hfound =>
    intro heq
    rw [allocLoop, dif_pos h, if_pos hfound] at heq
    exact absurd heq (by simp)
  | case2 next h hfound ih =>
    intro heq s hs hslen hrun
    rw [allocLoop, dif_pos h, if_neg hfound] at heq
    have hsnd : (scanRun bm cnt (skipZeros bm next) 0).2 = false :=
      Bool.not_eq_true _ ▸ hfound
    have hpair : scanRun bm cnt (skipZeros bm next) 0 =
        ((scanRun bm cnt (skipZeros bm next) 0).1, false) := by
      rw [← hsnd]
    obtain ⟨hskip_ge, hskip_stop, hzeros⟩ := skipZeros_spec bm next
    obtain ⟨hscan_ge, hscan_short, hscan_stop, hscan_bits⟩ :=
      scanRun_not_found bm cnt (skipZeros bm next) 0 _ hpair hcnt
    rcases Nat.lt_or_ge s (skipZeros bm next) with hlt | hge
    · exact absurd (hrun s (le_refl s) (by omega)) (by simp [hzeros s hs hlt])
    · rcases Nat.lt_or_ge s (scanRun bm cnt (skipZeros bm next) 0).1 with hlt2 | hge2
      · exact no_run_through_stop bm cnt (skipZeros bm next)
          (scanRun bm cnt (skipZeros bm next) 0).1 s (by omega) hscan_stop hge
          (by omega) hslen hrun
      · exact ih heq s hge2 hslen hrun
  | case3 next h =>
    intro heq s hs hslen _
    rw [Nat.not_lt] at h
    omega

/-- C4 (amended): for `cnt > 0`, `allocate_frames(cnt)` returns `None` iff
`cnt > usable_frames` or no run of `cnt` consecutive set bits exists in
the window the code scans — bit indices from `next_frame` up to
`Bitmap::len`, which is the **byte** length of the buffer (runs before
`next_frame` or beyond that bound are never found); whenever it returns
`Some(base)`, `base = (run_end - cnt) * 4096` for a run of `cnt` set bits
inside that window, and those `cnt` bits are cleared. -/
theorem allocateFrames_characterization (a : FrameAlloc) (cnt : Nat)
    (hcnt : 0 < cnt) :
    ((allocateFrames a cnt).1 = none ↔
      a.usable_frames < cnt ∨ ¬ specRunExists a.bitmap a.next_frame cnt) ∧
    (∀ addr, (allocateFrames a cnt).1 = some addr →
      ∃ e, cnt ≤ e ∧ e ≤ a.bitmap.len ∧ a.next_frame ≤ e - cnt ∧
        addr = (e - cnt) * 4096 ∧
        (∀ j, e - cnt ≤ j → j < e → a.bitmap.get j = true) ∧
        (∀ j, e - cnt ≤ j → j < e →
          (allocateFrames a cnt).2.bitmap.get j = false)) := by
  unfold allocateFrames
  by_cases hg : a.usable_frames < cnt
  · rw [if_pos hg]
    exact ⟨⟨fun _ => Or.inl hg, fun _ => rfl⟩,
      fun addr hcon => absurd hcon (by simp)⟩
  · rw [if_neg hg]
    dsimp only
    cases hsr : (scanRun a.bitmap cnt a.next_frame 0).2 with
    | true =>
      simp only [hsr]
      rw [if_pos trivial]
      have hpair : scanRun a.bitmap cnt a.next_frame 0 =
          ((scanRun a.bitmap cnt a.next_frame 0).1, true) := by
        rw [← hsr]
      obtain ⟨hend, hlen, hbits⟩ :=
        scanRun_found a.bitmap cnt a.next_frame 0 _ hpair hcnt
      have hrun : specRunExists a.bitmap a.next_frame cnt :=
        ⟨a.next_frame, le_refl _, by omega, fun j hj hj' => hbits j hj (by omega)⟩
      constructor
      · constructor
        · intro hcon; exact absurd hcon (by simp)
        · rintro (hcon | hcon)
          · exact absurd hcon hg
          · exact absurd hrun hcon
      · intro addr haddr
        have haddr' : addr = ((scanRun a.bitmap cnt a.next_frame 0).1 - cnt) * 4096 :=
          (Option.some.inj haddr).symm
        refine ⟨(scanRun a.bitmap cnt a.next_frame 0).1, by omega, hlen, by omega,
          haddr', fun j hj hj' => hbits j (by omega) hj', ?_⟩
        intro j hj hj'
        show (clearRange a.bitmap ((scanRun a.bitmap cnt a.next_frame 0).1 - cnt)
          (scanRun a.bitmap cnt a.next_frame 0).1).get j = false
        rw [clearRange_get a.bitmap _ _ hlen j, if_pos ⟨hj, hj'⟩]
    | false =>
      rw [if_neg (by simp [hsr])]
      have hpair : scanRun a.bitmap cnt a.next_frame 0 =
          ((scanRun a.bitmap cnt a.next_frame 0).1, false) := by
        rw [← hsr]
      obtain ⟨hscan_ge, hscan_short, hscan_stop, hscan_bits⟩ :=
        scanRun_not_found a.bitmap cnt a.next_frame 0 _ hpair hcnt
      rcases hal : allocLoop a.bitmap cnt (scanRun a.bitmap cnt a.next_frame 0).1
        with - | ⟨addr', bm'⟩
      · dsimp only
        constructor
        · constructor
          · intro _
            refine Or.inr ?_
            rintro ⟨s, hs1, hs2, hs3⟩
            rcases Nat.lt_or_ge s (scanRun a.bitmap cnt a.next_frame 0).1
              with hlt | hge
            · exact no_run_through_stop a.bitmap cnt a.next_frame
                (scanRun a.bitmap cnt a.next_frame 0).1 s (by omega) hscan_stop
                hs1 (by omega) hs2 hs3
            · exact allocLoop_none a.bitmap cnt hcnt _ hal s hge hs2 hs3
          · intro _; rfl
        · intro addr hcon; exact absurd hcon (by simp)
      · dsimp only
        obtain ⟨e, h1, h2, h3, h4, h5, h6⟩ :=
          allocLoop_some a.bitmap cnt hcnt _ addr' bm' hal
        constructor
        · constructor
          · intro hcon; exact absurd hcon (by simp)
          · rintro (hcon | hcon)
            · exact absurd hcon hg
            · exact absurd ⟨e - cnt, by omega, by omega,
                fun j hj hj' => h5 j hj (by omega)⟩ hcon
        · intro addr haddr
          have haddr' : addr = addr' := (Option.some.inj haddr).symm
          refine ⟨e, h1, h2, by omega, haddr' ▸ h4, h5, ?_⟩
          intro j hj hj'
          show bm'.get j = false
          rw [h6, clearRange_get a.bitmap _ _ h2 j, if_pos ⟨hj, hj'⟩]

/-- C4 witness: over the two-byte bitmap `[0b11110000, 0]` with
`usable_frames = 4` and `next_frame = 0`, `allocate_frames(2)` finds the
run ending at bit 6: base `(6-2)*4096`, and bits 4 and 5 are cleared. -/
theorem allocateFrames_characterization_witness :
    ((allocateFrames ⟨⟨[240, 0]⟩, 4, 0⟩ 2).1 = none ↔
      (4 : Nat) < 2 ∨ ¬ specRunExists ⟨[240, 0]⟩ 0 2) ∧
    (∀ addr, (allocateFrames ⟨⟨[240, 0]⟩, 4, 0⟩ 2).1 = some addr →
      ∃ e, 2 ≤ e ∧ e ≤ Bitmap.len ⟨[240, 0]⟩ ∧ 0 ≤ e - 2 ∧
        addr = (e - 2) * 4096 ∧
        (∀ j, e - 2 ≤ j → j < e → Bitmap.get ⟨[240, 0]⟩ j = true) ∧
        (∀ j, e - 2 ≤ j → j < e →
          (allocateFrames ⟨⟨[240, 0]⟩, 4, 0⟩ 2).2.bitmap.get j = false)) :=
  allocateFrames_characterization ⟨⟨[240, 0]⟩, 4, 0⟩ 2 (by decide)

end GoodOs
